import Mathlib

/-!
Shallow embedding of the `c6` Connect6 board core (`src/c6.ts`).

JavaScript numeric semantics: the source operates on JS numbers with the
bitwise operators `<< >> >>> & | ^ ~`, which act on the 32-bit truncation of
their operands.  We model every such value as a `Nat` holding the 32-bit
pattern (in `[0, 2^32)`), taking `% 4294967296` wherever the source's
operators truncate; signed reads (`>> 0`) convert a pattern back to an `Int`.
-/

/-- ToUint32: the 32-bit pattern of a JS number holding the integer `x`. -/
def asUInt32 (x : Int) : Nat := (x % 4294967296).toNat

/-- ToInt32: reinterpret a bit pattern as a signed 32-bit value. -/
def asInt32 (n : Nat) : Int :=
  if n % 4294967296 < 2147483648 then (n % 4294967296 : Nat)
  else (n % 4294967296 : Nat) - 4294967296

/-- `zigzag_encode(x) = ((x << 1) ^ (x >> 31)) >>> 0`.
`x << 1` doubles the 32-bit pattern mod 2^32; `x >> 31` is the sign
replication of the 32-bit pattern: all-ones when bit 31 is set, else 0. -/
def zigzag_encode (x : Int) : Nat :=
  asUInt32 x * 2 % 4294967296 ^^^ (if 2147483648 ≤ asUInt32 x then 4294967295 else 0)

/-- `zigzag_decode(x) = ((x >>> 1) ^ -(x & 1)) >> 0`.
`- (x & 1)` is the pattern 0 or all-ones according to the low bit. -/
def zigzag_decode (x : Nat) : Int :=
  asInt32 ((x % 4294967296) >>> 1 ^^^ (if x % 4294967296 &&& 1 = 1 then 4294967295 else 0))

/-- `scatter`: spread the low 16 bits of `x` to the even bit positions
(`x = (x | (x << 8)) & 0x00ff00ff` and so on, each `<<` truncating mod 2^32). -/
def scatter (x : Nat) : Nat :=
  let x := (x % 4294967296 ||| x <<< 8 % 4294967296) &&& 0x00ff00ff
  let x := (x ||| x <<< 4 % 4294967296) &&& 0x0f0f0f0f
  let x := (x ||| x <<< 2 % 4294967296) &&& 0x33333333
  (x ||| x <<< 1 % 4294967296) &&& 0x55555555

/-- `interleave(x, y) = scatter(x) | (scatter(y) << 1)`. -/
def interleave (x y : Nat) : Nat :=
  scatter x ||| scatter y <<< 1 % 4294967296

/-- `gather`: collect the even bit positions of `x` into the low 16 bits. -/
def gather (x : Nat) : Nat :=
  let x := x % 4294967296 &&& 0x55555555
  let x := (x ||| x >>> 1) &&& 0x33333333
  let x := (x ||| x >>> 2) &&& 0x0f0f0f0f
  let x := (x ||| x >>> 4) &&& 0x00ff00ff
  (x ||| x >>> 8) &&& 0x0000ffff

/-- `deinterleave(x) = [gather(x), gather(x >>> 1)]`. -/
def deinterleave (x : Nat) : Nat × Nat :=
  (gather x, gather ((x % 4294967296) >>> 1))

structure Point where
  x : Int
  y : Int
deriving DecidableEq, Repr

def Point.index (p : Point) : Nat :=
  interleave (zigzag_encode p.x) (zigzag_encode p.y)

def Point.from_index (i : Nat) : Point :=
  let (x, y) := deinterleave i
  ⟨zigzag_decode x, zigzag_decode y⟩

def extract_lo_bits (i bits : Nat) : Nat × Nat :=
  (i >>> bits, i &&& (1 <<< bits - 1))

def CHUNK_SIZE_BITS : Nat := 4
def CHUNK_SIZE : Nat := 1 <<< CHUNK_SIZE_BITS
def WORDS_PER_CHUNK : Nat := CHUNK_SIZE * CHUNK_SIZE * 2 / 32
def SLOT_INDEX_BITS : Nat := 4
def WORD_INDEX_BITS : Nat := CHUNK_SIZE_BITS * 2 - SLOT_INDEX_BITS

def Point.indexes (p : Point) : Nat × Nat × Nat :=
  let i := p.index
  let (i, slot_i) := extract_lo_bits i SLOT_INDEX_BITS
  let (i, word_i) := extract_lo_bits i WORD_INDEX_BITS
  (i, word_i, slot_i)

/-! ### Bit-level facts about the codec -/

theorem mod32_testBit (x i : Nat) :
    (x % 4294967296).testBit i = (decide (i < 32) && x.testBit i) := by
  have h : (4294967296 : Nat) = 2 ^ 32 := by norm_num
  rw [h, Nat.testBit_mod_two_pow]

theorem mask55_testBit (i : Nat) :
    Nat.testBit 0x55555555 i = (decide (i < 32) && decide (i % 2 = 0)) := by
  rcases Nat.lt_or_ge i 32 with hi | hi
  · interval_cases i <;> decide
  · rw [Nat.testBit_lt_two_pow
      (lt_of_lt_of_le (by norm_num) (Nat.pow_le_pow_right (by norm_num) hi))]
    simp; omega

theorem mask33_testBit (i : Nat) :
    Nat.testBit 0x33333333 i = (decide (i < 32) && decide (i % 4 < 2)) := by
  rcases Nat.lt_or_ge i 32 with hi | hi
  · interval_cases i <;> decide
  · rw [Nat.testBit_lt_two_pow
      (lt_of_lt_of_le (by norm_num) (Nat.pow_le_pow_right (by norm_num) hi))]
    simp; omega

theorem mask0f_testBit (i : Nat) :
    Nat.testBit 0x0f0f0f0f i = (decide (i < 32) && decide (i % 8 < 4)) := by
  rcases Nat.lt_or_ge i 32 with hi | hi
  · interval_cases i <;> decide
  · rw [Nat.testBit_lt_two_pow
      (lt_of_lt_of_le (by norm_num) (Nat.pow_le_pow_right (by norm_num) hi))]
    simp; omega

theorem mask00ff_testBit (i : Nat) :
    Nat.testBit 0x00ff00ff i = (decide (i < 24) && decide (i % 16 < 8)) := by
  rcases Nat.lt_or_ge i 32 with hi | hi
  · interval_cases i <;> decide
  · rw [Nat.testBit_lt_two_pow
      (lt_of_lt_of_le (by norm_num) (Nat.pow_le_pow_right (by norm_num) hi))]
    simp; omega

theorem maskffff_testBit (i : Nat) :
    Nat.testBit 0x0000ffff i = decide (i < 16) := by
  rcases Nat.lt_or_ge i 32 with hi | hi
  · interval_cases i <;> decide
  · rw [Nat.testBit_lt_two_pow
      (lt_of_lt_of_le (by norm_num) (Nat.pow_le_pow_right (by norm_num) hi))]
    simp; omega

theorem hi_bits {x : Nat} (h : x < 65536) : ∀ k, 16 ≤ k → x.testBit k = false := by
  intro k hk
  apply Nat.testBit_lt_two_pow
  have h2 : (2 : Nat) ^ 16 ≤ 2 ^ k := Nat.pow_le_pow_right (by norm_num) hk
  norm_num at h2; omega

theorem scatter_testBit {x : Nat} (h : x < 65536) (i : Nat) :
    (scatter x).testBit i = (decide (i % 2 = 0) && x.testBit (i / 2)) := by
  rcases Nat.lt_or_ge i 32 with hi | hi
  · unfold scatter
    interval_cases i <;>
    · simp only [Nat.testBit_or, Nat.testBit_and, Nat.testBit_shiftLeft, mod32_testBit,
        mask55_testBit, mask33_testBit, mask0f_testBit, mask00ff_testBit]
      simp [hi_bits h]
  · have h1 : (scatter x).testBit i = false := by
      apply Nat.testBit_lt_two_pow
      calc scatter x ≤ 0x55555555 := Nat.and_le_right
        _ < 2 ^ 32 := by norm_num
        _ ≤ 2 ^ i := Nat.pow_le_pow_right (by norm_num) hi
    rw [h1, hi_bits h (i / 2) (by omega)]
    simp

theorem gather_testBit (y : Nat) {i : Nat} (hi : i < 16) :
    (gather y).testBit i = y.testBit (2 * i) := by
  unfold gather
  interval_cases i <;>
  · simp only [Nat.testBit_or, Nat.testBit_and, Nat.testBit_shiftRight, mod32_testBit,
      mask55_testBit, mask33_testBit, mask0f_testBit, mask00ff_testBit, maskffff_testBit]
    simp

theorem gather_lt (y : Nat) : gather y < 65536 := by
  have h : gather y ≤ 0x0000ffff := Nat.and_le_right
  omega

theorem gather_scatter {x : Nat} (h : x < 65536) : gather (scatter x) = x := by
  apply Nat.eq_of_testBit_eq
  intro i
  rcases Nat.lt_or_ge i 16 with hi | hi
  · rw [gather_testBit _ hi, scatter_testBit h]
    simp [Nat.mul_div_cancel_left]
  · rw [hi_bits (gather_lt (scatter x)) i hi, hi_bits h i hi]

theorem scatter_lt (x : Nat) : scatter x < 4294967296 := by
  have h : scatter x ≤ 0x55555555 := Nat.and_le_right
  omega

theorem deinterleave_interleave {x y : Nat} (hx : x < 65536) (hy : y < 65536) :
    deinterleave (interleave x y) = (x, y) := by
  have hsy : scatter y ≤ 0x55555555 := Nat.and_le_right
  have hmod : scatter y <<< 1 % 4294967296 = scatter y * 2 := by
    rw [Nat.shiftLeft_eq]
    have : scatter y * 2 ^ 1 < 4294967296 := by omega
    rw [Nat.mod_eq_of_lt this]; ring
  have hfst : gather (interleave x y) = x := by
    apply Nat.eq_of_testBit_eq
    intro i
    rcases Nat.lt_or_ge i 16 with hi | hi
    · rw [gather_testBit _ hi]
      unfold interleave
      rw [hmod, Nat.testBit_or, scatter_testBit hx]
      have e2 : scatter y * 2 = scatter y <<< 1 := by simp [Nat.shiftLeft_eq]
      rw [e2, Nat.testBit_shiftLeft]
      have e3 : (2 * i) % 2 = 0 := by omega
      have e4 : 2 * i / 2 = i := by omega
      rcases Nat.eq_zero_or_pos i with h0 | h0
      · simp [h0]
      · have e5 : (scatter y).testBit (2 * i - 1) = false := by
          rw [scatter_testBit hy]
          have : (2 * i - 1) % 2 = 1 := by omega
          simp [this]
        simp [e3, e4, e5]
    · rw [hi_bits (gather_lt _) i hi, hi_bits hx i hi]
  have hsnd : gather ((interleave x y % 4294967296) >>> 1) = y := by
    apply Nat.eq_of_testBit_eq
    intro i
    rcases Nat.lt_or_ge i 16 with hi | hi
    · rw [gather_testBit _ hi, Nat.testBit_shiftRight, mod32_testBit]
      unfold interleave
      rw [hmod, Nat.testBit_or, scatter_testBit hx]
      have e2 : scatter y * 2 = scatter y <<< 1 := by simp [Nat.shiftLeft_eq]
      rw [e2, Nat.testBit_shiftLeft, scatter_testBit hy]
      have e3 : (1 + 2 * i) % 2 = 1 := by omega
      have e4 : 1 + 2 * i - 1 = 2 * i := by omega
      have e5 : (2 * i) % 2 = 0 := by omega
      have e6 : 2 * i / 2 = i := by omega
      have e7 : 1 + 2 * i < 32 := by omega
      simp [e3, e4, e5, e6, e7]
    · rw [hi_bits (gather_lt _) i hi, hi_bits hy i hi]
  unfold deinterleave
  rw [hfst, hsnd]

theorem xor_allones {a : Nat} (h : a < 4294967296) : a ^^^ 4294967295 = 4294967295 - a := by
  have e32 : (2 : Nat) ^ 32 = 4294967296 := by norm_num
  apply Nat.eq_of_testBit_eq
  intro i
  rw [Nat.testBit_xor]
  rw [show (4294967295 : Nat) = 2 ^ 32 - 1 by norm_num]
  rw [Nat.testBit_two_pow_sub_one]
  rw [show (2 : Nat) ^ 32 - 1 - a = 2 ^ 32 - (a + 1) by omega]
  rw [Nat.testBit_two_pow_sub_succ (by omega)]
  rcases Nat.lt_or_ge i 32 with hi | hi
  · simp [hi]
  · have ha : a.testBit i = false :=
      Nat.testBit_lt_two_pow (by have := Nat.pow_le_pow_right (show 0 < 2 by norm_num) hi; omega)
    simp [ha, Nat.not_lt.mpr hi]

theorem asUInt32_nonneg {x : Int} (h1 : 0 ≤ x) (h2 : x < 4294967296) :
    asUInt32 x = x.toNat := by
  unfold asUInt32
  rw [show x % 4294967296 = x by omega]

theorem asUInt32_neg {x : Int} (h1 : -4294967296 ≤ x) (h2 : x < 0) :
    asUInt32 x = (x + 4294967296).toNat := by
  unfold asUInt32
  rw [show x % 4294967296 = x + 4294967296 by omega]

theorem zigzag_encode_nonneg {x : Int} (h1 : 0 ≤ x) (h2 : x ≤ 32767) :
    zigzag_encode x = x.toNat * 2 := by
  unfold zigzag_encode
  rw [asUInt32_nonneg h1 (by omega)]
  have hu : x.toNat ≤ 32767 := by omega
  rw [if_neg (by omega), Nat.xor_zero, Nat.mod_eq_of_lt (by omega)]

theorem zigzag_encode_neg {x : Int} (h1 : -32768 ≤ x) (h2 : x < 0) :
    zigzag_encode x = 2 * (-x).toNat - 1 := by
  unfold zigzag_encode
  rw [asUInt32_neg (by omega) h2]
  have hu1 : 4294934528 ≤ (x + 4294967296).toNat := by omega
  have hu2 : (x + 4294967296).toNat < 4294967296 := by omega
  rw [if_pos (by omega)]
  rw [show (x + 4294967296).toNat * 2 % 4294967296 = (x + 4294967296).toNat * 2 - 4294967296
    by omega]
  rw [xor_allones (by omega)]
  omega

theorem zigzag_encode_lt {x : Int} (h1 : -32768 ≤ x) (h2 : x ≤ 32767) :
    zigzag_encode x < 65536 := by
  rcases Int.lt_or_le x 0 with hx | hx
  · rw [zigzag_encode_neg h1 hx]; omega
  · rw [zigzag_encode_nonneg hx h2]; omega

theorem zigzag_decode_encode {x : Int} (h1 : -32768 ≤ x) (h2 : x ≤ 32767) :
    zigzag_decode (zigzag_encode x) = x := by
  rcases Int.lt_or_le x 0 with hx | hx
  · rw [zigzag_encode_neg h1 hx]
    set n : Nat := (-x).toNat with hn
    have hn1 : 1 ≤ n := by omega
    have hn2 : n ≤ 32768 := by omega
    unfold zigzag_decode
    rw [Nat.mod_eq_of_lt (by omega), Nat.and_one_is_mod]
    rw [if_pos (by omega)]
    rw [Nat.shiftRight_eq_div_pow, pow_one]
    rw [show (2 * n - 1) / 2 = n - 1 by omega]
    rw [xor_allones (by omega)]
    unfold asInt32
    rw [Nat.mod_eq_of_lt (by omega)]
    rw [if_neg (by omega)]
    omega
  · rw [zigzag_encode_nonneg hx h2]
    set u : Nat := x.toNat with hu
    have hu2 : u ≤ 32767 := by omega
    unfold zigzag_decode
    rw [Nat.mod_eq_of_lt (by omega), Nat.and_one_is_mod]
    rw [if_neg (by omega)]
    rw [Nat.xor_zero, Nat.shiftRight_eq_div_pow, pow_one]
    rw [show u * 2 / 2 = u by omega]
    unfold asInt32
    rw [Nat.mod_eq_of_lt (by omega)]
    rw [if_pos (by omega)]
    omega

/-- C1: round-trip of the coordinate codec on the supported signed range. -/
theorem point_from_index_index {p : Point}
    (hx1 : -32768 ≤ p.x) (hx2 : p.x ≤ 32767)
    (hy1 : -32768 ≤ p.y) (hy2 : p.y ≤ 32767) :
    Point.from_index p.index = p := by
  unfold Point.from_index Point.index
  rw [deinterleave_interleave (zigzag_encode_lt hx1 hx2) (zigzag_encode_lt hy1 hy2)]
  show Point.mk (zigzag_decode (zigzag_encode p.x)) (zigzag_decode (zigzag_encode p.y)) = p
  rw [zigzag_decode_encode hx1 hx2, zigzag_decode_encode hy1 hy2]

/-- C1 witness: the round-trip at the extreme in-range corner `(-32768, 32767)`. -/
theorem point_from_index_index_witness :
    Point.from_index (Point.index ⟨-32768, 32767⟩) = (⟨-32768, 32767⟩ : Point) :=
  point_from_index_index (by decide) (by decide) (by decide) (by decide)

/-- C10 counterexample: `(65536, 0)` and `(0, 0)` have zigzag encodings that agree
modulo 2^16 on both axes, yet their indexes differ (`scatter` reads bits 16..23 of
its input), so `Point.index` does not depend only on the low 16 bits. -/
theorem index_not_mod16_determined :
    zigzag_encode (65536 : Int) % 65536 = zigzag_encode (0 : Int) % 65536 ∧
    zigzag_encode (0 : Int) % 65536 = zigzag_encode (0 : Int) % 65536 ∧
    Point.index ⟨65536, 0⟩ = 262144 ∧ Point.index ⟨0, 0⟩ = 0 ∧
    Point.index ⟨65536, 0⟩ ≠ Point.index ⟨0, 0⟩ := by decide

theorem scatter_eq_of_mod24 {a b : Nat} (h : a % 16777216 = b % 16777216) :
    scatter a = scatter b := by
  have hbit : ∀ j, j < 24 → a.testBit j = b.testBit j := by
    intro j hj
    have h2 := congrArg (fun t => Nat.testBit t j) h
    simp only [show (16777216 : Nat) = 2 ^ 24 by norm_num, Nat.testBit_mod_two_pow] at h2
    simpa [hj] using h2
  have h1 : (a % 4294967296 ||| a <<< 8 % 4294967296) &&& 0x00ff00ff
      = (b % 4294967296 ||| b <<< 8 % 4294967296) &&& 0x00ff00ff := by
    apply Nat.eq_of_testBit_eq
    intro i
    simp only [Nat.testBit_and, Nat.testBit_or, mod32_testBit, Nat.testBit_shiftLeft,
      mask00ff_testBit]
    rcases Nat.lt_or_ge i 24 with hi | hi
    · rw [hbit i (by omega), hbit (i - 8) (by omega)]
    · simp [show ¬(i < 24) by omega]
  simp only [scatter]
  rw [h1]

/-- C10 amended: `Point.index` depends only on the low 24 bits of each
coordinate's zigzag encoding. -/
theorem index_eq_of_zigzag_mod24 (p q : Point)
    (hx : zigzag_encode p.x % 16777216 = zigzag_encode q.x % 16777216)
    (hy : zigzag_encode p.y % 16777216 = zigzag_encode q.y % 16777216) :
    p.index = q.index := by
  unfold Point.index interleave
  rw [scatter_eq_of_mod24 hx, scatter_eq_of_mod24 hy]

/-- C10 amended witness: the out-of-range point `(8388608, 0)` silently aliases
the in-range point `(0, 0)` (their zigzag encodings agree modulo 2^24). -/
theorem index_eq_of_zigzag_mod24_witness :
    Point.index ⟨8388608, 0⟩ = Point.index ⟨0, 0⟩ :=
  index_eq_of_zigzag_mod24 ⟨8388608, 0⟩ ⟨0, 0⟩ (by decide) (by decide)

/-! ### The grid: `Stone`, `Chunk`, `RawBoard` -/

inductive Stone where
  | Black
  | White
deriving DecidableEq, Repr

/-- The enum values: `Black = 0`, `White = 1`. -/
def Stone.toNat : Stone → Nat
  | .Black => 0
  | .White => 1

/-- `stone ^ 1` on the enum's numeric values. -/
def Stone.opp : Stone → Stone
  | .Black => .White
  | .White => .Black

/-- The 2-bit slot read `(word >>> (slot_i * 2)) & 3` shared by get/set/unset. -/
def slot_value (word slot_i : Nat) : Nat := word >>> (slot_i * 2) &&& 3

/-- The `switch` on a slot value: 0 is empty, 1 is Black, anything else White. -/
def decode_slot : Nat → Option Stone
  | 0 => none
  | 1 => some Stone.Black
  | _ => some Stone.White

/-- A `Chunk` is a `Uint32Array(WORDS_PER_CHUNK)`, zero-initialized; we model
the backing store as a function from word index to the stored 32-bit word. -/
structure Chunk where
  words : Nat → Nat

def Chunk.empty : Chunk := ⟨fun _ => 0⟩

def Chunk.get (c : Chunk) (word_i slot_i : Nat) : Option Stone :=
  decode_slot (slot_value (c.words word_i) slot_i)

/-- `Chunk.set`: fail if the slot is occupied, else store
`word | (1 << (slot_i * 2 + stone))` (the store truncates mod 2^32). -/
def Chunk.set (c : Chunk) (word_i slot_i : Nat) (stone : Stone) : Bool × Chunk :=
  let word := c.words word_i
  if slot_value word slot_i ≠ 0 then (false, c)
  else
    (true, ⟨fun j => if j = word_i
      then (word ||| 1 <<< (slot_i * 2 + stone.toNat)) % 4294967296
      else c.words j⟩)

/-- `Chunk.unset`: store `word & ~(3 << (slot_i * 2))` and return the old slot;
`~` complements the 32-bit pattern, i.e. xors with `0xffffffff`. -/
def Chunk.unset (c : Chunk) (word_i slot_i : Nat) : Option Stone × Chunk :=
  let word := c.words word_i
  (decode_slot (slot_value word slot_i),
   ⟨fun j => if j = word_i
      then (word &&& (4294967295 ^^^ 3 <<< (slot_i * 2))) % 4294967296
      else c.words j⟩)

/-- `RawBoard`: a `Map<number, Chunk>` modelled as a function to `Option Chunk`. -/
structure RawBoard where
  chunks : Nat → Option Chunk

def RawBoard.empty : RawBoard := ⟨fun _ => none⟩

def RawBoard.chunk (g : RawBoard) (chunk_i : Nat) : Option Chunk := g.chunks chunk_i

def RawBoard.chunk_or_default (g : RawBoard) (chunk_i : Nat) : Chunk :=
  match g.chunks chunk_i with
  | some c => c
  | none => Chunk.empty

def RawBoard.get (g : RawBoard) (point : Point) : Option Stone :=
  let (chunk_i, word_i, slot_i) := point.indexes
  match g.chunk chunk_i with
  | none => none
  | some c => c.get word_i slot_i

/-- `RawBoard.set`: `chunk_or_default` inserts the (possibly fresh) chunk into
the map, then the chunk-level set runs on it. -/
def RawBoard.set (g : RawBoard) (point : Point) (stone : Stone) : Bool × RawBoard :=
  let (chunk_i, word_i, slot_i) := point.indexes
  let r := (g.chunk_or_default chunk_i).set word_i slot_i stone
  (r.1, ⟨fun j => if j = chunk_i then some r.2 else g.chunks j⟩)

def RawBoard.unset (g : RawBoard) (point : Point) : Option Stone × RawBoard :=
  let (chunk_i, word_i, slot_i) := point.indexes
  match g.chunk chunk_i with
  | none => (none, g)
  | some c =>
    let r := c.unset word_i slot_i
    (r.1, ⟨fun j => if j = chunk_i then some r.2 else g.chunks j⟩)

/-! ### Slot-level bit lemmas -/

theorem decide_and_eq_false {P Q : Prop} [Decidable P] [Decidable Q] (h : P → ¬Q) :
    (decide P && decide Q) = false := by
  by_cases hp : P
  · simp [h hp]
  · simp [hp]

theorem slot_value_testBit (w s j : Nat) :
    (slot_value w s).testBit j = (w.testBit (s * 2 + j) && decide (j < 2)) := by
  unfold slot_value
  rw [Nat.testBit_and, Nat.testBit_shiftRight,
    show (3 : Nat) = 2 ^ 2 - 1 from rfl, Nat.testBit_two_pow_sub_one]

theorem slot_value_lt (w s : Nat) : slot_value w s < 4 := by
  have h := Nat.and_lt_two_pow (w >>> (s * 2)) (show 3 < 2 ^ 2 by norm_num)
  simpa [slot_value] using h

theorem Stone.toNat_lt (t : Stone) : t.toNat < 2 := by cases t <;> decide

theorem slot_value_mod32 {s : Nat} (v : Nat) (hs : s < 16) :
    slot_value (v % 4294967296) s = slot_value v s := by
  apply Nat.eq_of_testBit_eq
  intro j
  rcases Nat.lt_or_ge j 2 with hj | hj
  · rw [slot_value_testBit, slot_value_testBit, mod32_testBit,
      show decide (s * 2 + j < 32) = true by simp; omega]
    simp
  · rw [slot_value_testBit, slot_value_testBit]
    simp [show ¬(j < 2) by omega]

theorem slot_value_or (a b s : Nat) :
    slot_value (a ||| b) s = slot_value a s ||| slot_value b s := by
  apply Nat.eq_of_testBit_eq
  intro j
  rw [Nat.testBit_or, slot_value_testBit, slot_value_testBit, slot_value_testBit,
    Nat.testBit_or]
  cases ha : a.testBit (s * 2 + j) <;> cases hd : decide (j < 2) <;> simp

theorem slot_value_and (a b s : Nat) :
    slot_value (a &&& b) s = slot_value a s &&& slot_value b s := by
  apply Nat.eq_of_testBit_eq
  intro j
  rw [Nat.testBit_and, slot_value_testBit, slot_value_testBit, slot_value_testBit,
    Nat.testBit_and]
  cases ha : a.testBit (s * 2 + j) <;> cases hd : decide (j < 2) <;> simp

theorem slot_value_shift_self (s : Nat) (t : Stone) :
    slot_value (1 <<< (s * 2 + t.toNat)) s = 1 <<< t.toNat := by
  unfold slot_value
  rw [Nat.shiftLeft_eq, Nat.shiftLeft_eq, Nat.shiftRight_eq_div_pow, one_mul, one_mul,
    pow_add, Nat.mul_div_cancel_left _ (Nat.pos_pow_of_pos _ (by norm_num))]
  rw [show (3 : Nat) = 2 ^ 2 - 1 from rfl, Nat.and_pow_two_sub_one_eq_mod]
  have ht := t.toNat_lt
  interval_cases h : t.toNat <;> decide

theorem slot_value_shift_of_ne {si sj : Nat} (t : Stone) (hne : sj ≠ si) :
    slot_value (1 <<< (si * 2 + t.toNat)) sj = 0 := by
  have ht := t.toNat_lt
  apply Nat.eq_of_testBit_eq
  intro j
  rw [slot_value_testBit, Nat.zero_testBit, Nat.testBit_shiftLeft,
    show (1 : Nat) = 2 ^ 0 from rfl, Nat.testBit_two_pow]
  rcases Nat.lt_or_ge j 2 with hj | hj
  · rw [decide_and_eq_false (fun h1 h2 => by omega)]
    simp
  · simp [show ¬(j < 2) by omega]

theorem slot_value_unset_mask_self {s : Nat} (hs : s < 16) :
    slot_value (4294967295 ^^^ 3 <<< (s * 2)) s = 0 := by
  apply Nat.eq_of_testBit_eq
  intro j
  rcases Nat.lt_or_ge j 2 with hj | hj
  · rw [slot_value_testBit, Nat.zero_testBit, Nat.testBit_xor,
      show (4294967295 : Nat) = 2 ^ 32 - 1 by norm_num, Nat.testBit_two_pow_sub_one,
      Nat.testBit_shiftLeft, show (3 : Nat) = 2 ^ 2 - 1 from rfl,
      Nat.testBit_two_pow_sub_one]
    rw [show decide (s * 2 + j < 32) = true by simp; omega,
      show decide (s * 2 ≤ s * 2 + j) = true by simp,
      show decide (s * 2 + j - s * 2 < 2) = true by simp; omega]
    simp
  · rw [slot_value_testBit, Nat.zero_testBit]
    simp [show ¬(j < 2) by omega]

theorem slot_value_unset_mask_of_ne {si sj : Nat} (hsj : sj < 16)
    (hne : sj ≠ si) :
    slot_value (4294967295 ^^^ 3 <<< (si * 2)) sj = 3 := by
  apply Nat.eq_of_testBit_eq
  intro j
  rcases Nat.lt_or_ge j 2 with hj | hj
  · rw [slot_value_testBit, Nat.testBit_xor,
      show (4294967295 : Nat) = 2 ^ 32 - 1 by norm_num, Nat.testBit_two_pow_sub_one,
      Nat.testBit_shiftLeft, show (3 : Nat) = 2 ^ 2 - 1 from rfl,
      Nat.testBit_two_pow_sub_one, Nat.testBit_two_pow_sub_one]
    rw [show decide (sj * 2 + j < 32) = true by simp; omega]
    have hfalse : (decide (sj * 2 + j ≥ si * 2) && decide (sj * 2 + j - si * 2 < 2)) = false :=
      decide_and_eq_false (fun h1 h2 => by omega)
    rw [hfalse]
    simp [hj]
  · rw [slot_value_testBit, show (3 : Nat) = 2 ^ 2 - 1 from rfl,
      Nat.testBit_two_pow_sub_one]
    simp [show ¬(j < 2) by omega]

theorem slot_value_self_lt_four (w s : Nat) : slot_value w s &&& 3 = slot_value w s := by
  rw [show (3 : Nat) = 2 ^ 2 - 1 from rfl,
    Nat.and_pow_two_sub_one_of_lt_two_pow (slot_value_lt w s)]

/-! ### Composite word-update lemmas -/

theorem setword_slot_self {w si : Nat} (t : Stone) (hsi : si < 16)
    (h : slot_value w si = 0) :
    slot_value ((w ||| 1 <<< (si * 2 + t.toNat)) % 4294967296) si = 1 <<< t.toNat := by
  rw [slot_value_mod32 _ hsi, slot_value_or, h, slot_value_shift_self, Nat.zero_or]

theorem setword_slot_of_ne {w si sj : Nat} (t : Stone) (hsj : sj < 16) (hne : sj ≠ si) :
    slot_value ((w ||| 1 <<< (si * 2 + t.toNat)) % 4294967296) sj = slot_value w sj := by
  rw [slot_value_mod32 _ hsj, slot_value_or, slot_value_shift_of_ne t hne, Nat.or_zero]

theorem unsetword_slot_self {w si : Nat} (hsi : si < 16) :
    slot_value ((w &&& (4294967295 ^^^ 3 <<< (si * 2))) % 4294967296) si = 0 := by
  rw [slot_value_mod32 _ hsi, slot_value_and, slot_value_unset_mask_self hsi, Nat.and_zero]

theorem unsetword_slot_of_ne {w si sj : Nat} (hsj : sj < 16) (hne : sj ≠ si) :
    slot_value ((w &&& (4294967295 ^^^ 3 <<< (si * 2))) % 4294967296) sj = slot_value w sj := by
  rw [slot_value_mod32 _ hsj, slot_value_and, slot_value_unset_mask_of_ne hsj hne,
    slot_value_self_lt_four]

theorem decode_slot_eq_none {v : Nat} : decode_slot v = none ↔ v = 0 := by
  match v with
  | 0 => simp [decode_slot]
  | 1 => simp [decode_slot]
  | v + 2 => simp [decode_slot]

theorem decode_slot_shift (t : Stone) : decode_slot (1 <<< t.toNat) = some t := by
  cases t <;> rfl

theorem slot_value_zero (s : Nat) : slot_value 0 s = 0 := by
  unfold slot_value
  rw [Nat.zero_shiftRight, Nat.zero_and]

/-! ### Chunk-level lemmas -/

theorem Chunk.empty_get (wi si : Nat) : Chunk.empty.get wi si = none := by
  unfold Chunk.get Chunk.empty
  rw [slot_value_zero]
  rfl

theorem Chunk.set_ok (c : Chunk) (wi si : Nat) (t : Stone) :
    (c.set wi si t).1 = decide (c.get wi si = none) := by
  unfold Chunk.set Chunk.get
  by_cases h : slot_value (c.words wi) si = 0
  · rw [if_neg (by simpa using h), h]
    simp [decode_slot]
  · rw [if_pos (by simpa using h)]
    simp [decode_slot_eq_none, h]

theorem Chunk.set_get (c : Chunk) {wi si : Nat} (t : Stone) (wj sj : Nat)
    (hsi : si < 16) (hsj : sj < 16) :
    ((c.set wi si t).2).get wj sj =
      if wj = wi ∧ sj = si ∧ c.get wi si = none then some t else c.get wj sj := by
  unfold Chunk.set Chunk.get
  by_cases h0 : slot_value (c.words wi) si = 0
  · rw [if_neg (by simpa using h0)]
    show decode_slot (slot_value (if wj = wi
        then (c.words wi ||| 1 <<< (si * 2 + t.toNat)) % 4294967296
        else c.words wj) sj) = _
    by_cases hw : wj = wi
    · subst hw
      by_cases hs : sj = si
      · subst hs
        rw [if_pos rfl, setword_slot_self t hsi h0, decode_slot_shift, h0]
        rw [if_pos ⟨rfl, rfl, rfl⟩]
      · rw [if_pos rfl, setword_slot_of_ne t hsj hs,
          if_neg (fun hand => hs hand.2.1)]
    · rw [if_neg hw, if_neg (fun hand => hw hand.1)]
  · rw [if_pos (by simpa using h0)]
    rw [if_neg (fun hand => h0 (decode_slot_eq_none.mp hand.2.2))]

theorem Chunk.unset_val (c : Chunk) (wi si : Nat) : (c.unset wi si).1 = c.get wi si := rfl

theorem Chunk.unset_get (c : Chunk) {wi si : Nat} (wj sj : Nat)
    (hsi : si < 16) (hsj : sj < 16) :
    ((c.unset wi si).2).get wj sj =
      if wj = wi ∧ sj = si then none else c.get wj sj := by
  unfold Chunk.unset Chunk.get
  show decode_slot (slot_value (if wj = wi
      then (c.words wi &&& (4294967295 ^^^ 3 <<< (si * 2))) % 4294967296
      else c.words wj) sj) = _
  by_cases hw : wj = wi
  · subst hw
    by_cases hs : sj = si
    · subst hs
      rw [if_pos rfl, unsetword_slot_self hsi]
      rw [if_pos ⟨rfl, rfl⟩]
      rfl
    · rw [if_pos rfl, unsetword_slot_of_ne hsj hs,
        if_neg (fun hand => hs hand.2)]
  · rw [if_neg hw, if_neg (fun hand => hw hand.1)]

/-! ### Index decomposition -/

theorem indexes_def (p : Point) :
    p.indexes = (p.index / 256, p.index / 16 % 16, p.index % 16) := by
  have e1 : ∀ n : Nat, n >>> 4 = n / 16 := fun n => by
    rw [Nat.shiftRight_eq_div_pow]
  have e2 : ∀ n : Nat, n &&& (1 <<< 4 - 1) = n % 16 := fun n => by
    rw [show (1 <<< 4 - 1 : Nat) = 2 ^ 4 - 1 from rfl, Nat.and_pow_two_sub_one_eq_mod]
  unfold Point.indexes extract_lo_bits
  rw [show SLOT_INDEX_BITS = 4 from rfl, show WORD_INDEX_BITS = 4 from rfl]
  simp only [e1, e2]
  rw [Nat.div_div_eq_div_mul]

theorem indexes_eq_iff {p q : Point} : q.indexes = p.indexes ↔ q.index = p.index := by
  rw [indexes_def, indexes_def]
  constructor
  · intro h
    simp only [Prod.mk.injEq] at h
    omega
  · intro h
    rw [h]

/-! ### RawBoard pointwise lemmas -/

theorem RawBoard.get_def (g : RawBoard) (p : Point) :
    g.get p = match g.chunks (p.index / 256) with
      | none => none
      | some c => c.get (p.index / 16 % 16) (p.index % 16) := by
  unfold RawBoard.get RawBoard.chunk
  rw [indexes_def]

theorem RawBoard.set_def (g : RawBoard) (p : Point) (t : Stone) :
    g.set p t =
      (((g.chunk_or_default (p.index / 256)).set (p.index / 16 % 16) (p.index % 16) t).1,
       ⟨fun j => if j = p.index / 256
          then some ((g.chunk_or_default (p.index / 256)).set (p.index / 16 % 16)
            (p.index % 16) t).2
          else g.chunks j⟩) := by
  unfold RawBoard.set
  rw [indexes_def]

theorem RawBoard.unset_def (g : RawBoard) (p : Point) :
    g.unset p = match g.chunks (p.index / 256) with
      | none => (none, g)
      | some c =>
        ((c.unset (p.index / 16 % 16) (p.index % 16)).1,
         ⟨fun j => if j = p.index / 256
            then some (c.unset (p.index / 16 % 16) (p.index % 16)).2
            else g.chunks j⟩) := by
  unfold RawBoard.unset RawBoard.chunk
  rw [indexes_def]

theorem RawBoard.get_empty (p : Point) : RawBoard.empty.get p = none := by
  rw [RawBoard.get_def]
  rfl

theorem RawBoard.set_fst (g : RawBoard) (p : Point) (t : Stone) :
    (g.set p t).1 = decide (g.get p = none) := by
  rw [RawBoard.set_def, RawBoard.get_def]
  unfold RawBoard.chunk_or_default
  cases hc : g.chunks (p.index / 256) with
  | none => rw [Chunk.set_ok, Chunk.empty_get]
  | some c => rw [Chunk.set_ok]

theorem RawBoard.get_set (g : RawBoard) (p : Point) (t : Stone) (q : Point) :
    ((g.set p t).2).get q =
      if q.index = p.index ∧ g.get p = none then some t else g.get q := by
  have hsp : p.index % 16 < 16 := by omega
  have hsq : q.index % 16 < 16 := by omega
  rw [RawBoard.set_def, RawBoard.get_def, RawBoard.get_def, RawBoard.get_def]
  unfold RawBoard.chunk_or_default
  show (match (if q.index / 256 = p.index / 256
      then some ((match g.chunks (p.index / 256) with
        | some c => c
        | none => Chunk.empty).set (p.index / 16 % 16) (p.index % 16) t).2
      else g.chunks (q.index / 256)) with
    | none => none
    | some c => c.get (q.index / 16 % 16) (q.index % 16)) = _
  by_cases hcq : q.index / 256 = p.index / 256
  · rw [if_pos hcq]
    cases hc : g.chunks (p.index / 256) with
    | none =>
      rw [hcq, hc]
      show ((Chunk.empty.set (p.index / 16 % 16) (p.index % 16) t).2).get
        (q.index / 16 % 16) (q.index % 16) = _
      rw [Chunk.set_get _ t _ _ hsp hsq, Chunk.empty_get, Chunk.empty_get]
      by_cases hqp : q.index = p.index
      · rw [if_pos ⟨by omega, by omega, rfl⟩, if_pos ⟨hqp, rfl⟩]
      · rw [if_neg (fun hand => hqp (by omega)), if_neg (fun hand => hqp hand.1)]
    | some c =>
      rw [hcq, hc]
      show ((c.set (p.index / 16 % 16) (p.index % 16) t).2).get
        (q.index / 16 % 16) (q.index % 16) = _
      rw [Chunk.set_get _ t _ _ hsp hsq]
      by_cases hqp : q.index = p.index
      · by_cases hge : c.get (p.index / 16 % 16) (p.index % 16) = none
        · rw [if_pos ⟨by omega, by omega, hge⟩, if_pos ⟨hqp, hge⟩]
        · rw [if_neg (fun hand => hge hand.2.2), if_neg (fun hand => hge hand.2),
            hqp]
      · rw [if_neg (fun hand => hqp (by omega)), if_neg (fun hand => hqp hand.1)]
  · rw [if_neg hcq]
    rw [if_neg (fun hand => hcq (by rw [hand.1]))]

theorem RawBoard.unset_fst (g : RawBoard) (p : Point) : (g.unset p).1 = g.get p := by
  rw [RawBoard.unset_def, RawBoard.get_def]
  cases hc : g.chunks (p.index / 256) with
  | none => rfl
  | some c => exact Chunk.unset_val c _ _

theorem RawBoard.get_unset (g : RawBoard) (p : Point) (q : Point) :
    ((g.unset p).2).get q = if q.index = p.index then none else g.get q := by
  have hsp : p.index % 16 < 16 := by omega
  have hsq : q.index % 16 < 16 := by omega
  cases hc : g.chunks (p.index / 256) with
  | none =>
    rw [RawBoard.unset_def, hc]
    show g.get q = _
    by_cases hqp : q.index = p.index
    · rw [if_pos hqp, RawBoard.get_def, hqp, hc]
    · rw [if_neg hqp]
  | some c =>
    rw [RawBoard.unset_def, hc]
    show (RawBoard.mk (fun j => if j = p.index / 256
        then some (c.unset (p.index / 16 % 16) (p.index % 16)).2
        else g.chunks j)).get q = _
    rw [RawBoard.get_def]
    show (match (if q.index / 256 = p.index / 256
        then some (c.unset (p.index / 16 % 16) (p.index % 16)).2
        else g.chunks (q.index / 256)) with
      | none => none
      | some c2 => c2.get (q.index / 16 % 16) (q.index % 16)) = _
    by_cases hcq : q.index / 256 = p.index / 256
    · rw [if_pos hcq]
      show ((c.unset (p.index / 16 % 16) (p.index % 16)).2).get
        (q.index / 16 % 16) (q.index % 16) = _
      rw [Chunk.unset_get _ _ _ hsp hsq]
      by_cases hqp : q.index = p.index
      · rw [if_pos ⟨by omega, by omega⟩, if_pos hqp]
      · rw [if_neg (fun hand => hqp (by omega)), if_neg hqp,
          RawBoard.get_def, hcq, hc]
    · rw [if_neg hcq, if_neg (fun hand => hcq (by rw [hand])), RawBoard.get_def]

theorem RawBoard.get_congr (g : RawBoard) {p q : Point} (h : q.index = p.index) :
    g.get q = g.get p := by
  rw [RawBoard.get_def, RawBoard.get_def, h]

theorem RawBoard.set_snd_of_occupied (g : RawBoard) (p : Point) (t : Stone)
    (h : g.get p ≠ none) : (g.set p t).2 = g := by
  rw [RawBoard.set_def]
  have hex : ∃ c, g.chunks (p.index / 256) = some c := by
    rcases hg : g.chunks (p.index / 256) with _ | c
    · exact absurd (by rw [RawBoard.get_def, hg]) h
    · exact ⟨c, rfl⟩
  obtain ⟨c, hc⟩ := hex
  have hslot : slot_value (c.words (p.index / 16 % 16)) (p.index % 16) ≠ 0 := by
    intro h0
    apply h
    rw [RawBoard.get_def, hc]
    show c.get (p.index / 16 % 16) (p.index % 16) = none
    exact decode_slot_eq_none.mpr h0
  unfold RawBoard.chunk_or_default
  rw [hc]
  show RawBoard.mk (fun j => if j = p.index / 256
    then some ((c.set (p.index / 16 % 16) (p.index % 16) t).2) else g.chunks j) = g
  have hset : c.set (p.index / 16 % 16) (p.index % 16) t = (false, c) := by
    unfold Chunk.set
    rw [if_pos (by simpa using hslot)]
  rw [hset]
  cases g with
  | mk chunks =>
    congr 1
    funext j
    by_cases hj : j = p.index / 256
    · rw [if_pos hj, hj, ← hc]
    · rw [if_neg hj]

/-- C7: after a successful `set p A`, `get p` returns `A`; a second `set p B`
fails and `get p` still returns `A`. -/
theorem grid_set_get_coherence (g : RawBoard) (p : Point) (A B : Stone)
    (h : (g.set p A).1 = true) :
    (g.set p A).2.get p = some A ∧
    ((g.set p A).2.set p B).1 = false ∧
    ((g.set p A).2.set p B).2.get p = some A := by
  have hnone : g.get p = none := by
    rw [RawBoard.set_fst] at h
    exact of_decide_eq_true h
  have h1 : (g.set p A).2.get p = some A := by
    rw [RawBoard.get_set, if_pos ⟨rfl, hnone⟩]
  refine ⟨h1, ?_, ?_⟩
  · rw [RawBoard.set_fst, h1]
    rfl
  · rw [RawBoard.get_set, if_neg (fun hand => by rw [h1] at hand; cases hand.2), h1]

/-- C7 witness at the origin on the empty grid. -/
theorem grid_set_get_coherence_witness :
    (RawBoard.empty.set ⟨0, 0⟩ Stone.Black).2.get ⟨0, 0⟩ = some Stone.Black ∧
    ((RawBoard.empty.set ⟨0, 0⟩ Stone.Black).2.set ⟨0, 0⟩ Stone.White).1 = false ∧
    ((RawBoard.empty.set ⟨0, 0⟩ Stone.Black).2.set ⟨0, 0⟩ Stone.White).2.get ⟨0, 0⟩
      = some Stone.Black :=
  grid_set_get_coherence RawBoard.empty ⟨0, 0⟩ Stone.Black Stone.White (by decide)

/-- C8: `unset` after a successful `set` returns the stored marker and empties
the point; `unset` on an empty point returns empty and changes nothing
(observably): every `get` is unchanged. -/
theorem grid_unset_coherence (g : RawBoard) (p : Point) (m : Stone) :
    ((g.set p m).1 = true →
      ((g.set p m).2.unset p).1 = some m ∧ ((g.set p m).2.unset p).2.get p = none) ∧
    (g.get p = none →
      (g.unset p).1 = none ∧ ∀ q : Point, (g.unset p).2.get q = g.get q) := by
  constructor
  · intro h
    have hnone : g.get p = none := by
      rw [RawBoard.set_fst] at h
      exact of_decide_eq_true h
    have h1 : (g.set p m).2.get p = some m := by
      rw [RawBoard.get_set, if_pos ⟨rfl, hnone⟩]
    constructor
    · rw [RawBoard.unset_fst, h1]
    · rw [RawBoard.get_unset, if_pos rfl]
  · intro h
    constructor
    · rw [RawBoard.unset_fst, h]
    · intro q
      rw [RawBoard.get_unset]
      by_cases hqp : q.index = p.index
      · rw [if_pos hqp, RawBoard.get_congr g hqp, h]
      · rw [if_neg hqp]

/-- C8 witness: set then unset the origin; unset a never-touched point. -/
theorem grid_unset_coherence_witness :
    ((RawBoard.empty.set ⟨0, 0⟩ Stone.Black).2.unset ⟨0, 0⟩).1 = some Stone.Black ∧
    ((RawBoard.empty.set ⟨0, 0⟩ Stone.Black).2.unset ⟨0, 0⟩).2.get ⟨0, 0⟩ = none ∧
    (RawBoard.empty.unset ⟨5, -7⟩).1 = none ∧
    (RawBoard.empty.unset ⟨5, -7⟩).2.get ⟨5, -7⟩ = RawBoard.empty.get ⟨5, -7⟩ :=
  ⟨((grid_unset_coherence RawBoard.empty ⟨0, 0⟩ Stone.Black).1 (by decide)).1,
   ((grid_unset_coherence RawBoard.empty ⟨0, 0⟩ Stone.Black).1 (by decide)).2,
   ((grid_unset_coherence RawBoard.empty ⟨5, -7⟩ Stone.Black).2 (by decide)).1,
   ((grid_unset_coherence RawBoard.empty ⟨5, -7⟩ Stone.Black).2 (by decide)).2 ⟨5, -7⟩⟩

/-! ### The history-tracked `Board` -/

structure Board where
  board : RawBoard
  record : List (Point × Stone)
  _index : Nat

def Board.empty : Board := ⟨RawBoard.empty, [], 0⟩

def Board.total_count (b : Board) : Nat := b.record.length

def Board.index (b : Board) : Nat := b._index

def Board.is_empty (b : Board) : Bool := b._index == 0

def Board.get (b : Board) (point : Point) : Option Stone := b.board.get point

def Board.past_record (b : Board) : List (Point × Stone) := b.record.take b._index

/-- `Board.set`: try the grid set; on failure return false (the grid is
untouched); on success `record.splice(_index)` then push and advance. -/
def Board.set (b : Board) (point : Point) (stone : Stone) : Bool × Board :=
  let r := b.board.set point stone
  if r.1 then
    (true, ⟨r.2, b.record.take b._index ++ [(point, stone)], b._index + 1⟩)
  else
    (false, { b with board := r.2 })

/-- The `record[i]` reads below are always in bounds at reachable states; the
totalizing default is never produced there. -/
def default_move : Point × Stone := (⟨0, 0⟩, Stone.Black)

def Board.unset (b : Board) : Option (Point × Stone) × Board :=
  if b._index = 0 then (none, b)
  else
    let last := b.record.getD (b._index - 1) default_move
    (some last, ⟨(b.board.unset last.1).2, b.record, b._index - 1⟩)

def Board.reset (b : Board) : Option (Point × Stone) × Board :=
  if b.record.length ≤ b._index then (none, b)
  else
    let next := b.record.getD b._index default_move
    (some next, ⟨(b.board.set next.1 next.2).2, b.record, b._index + 1⟩)

/-- `Board.jump`: replay `set` over `record[_index..index)` upward, or `unset`
over `record[index.._index)` downward (in decreasing order). -/
def Board.jump (b : Board) (index : Nat) : Board :=
  if b.record.length < index then b
  else if b._index < index then
    ⟨((b.record.drop b._index).take (index - b._index)).foldl
        (fun g m => (g.set m.1 m.2).2) b.board,
      b.record, index⟩
  else
    ⟨(((b.record.drop index).take (b._index - index)).reverse).foldl
        (fun g m => (g.unset m.1).2) b.board,
      b.record, index⟩

/-- `Board.jump` over the full JS input domain: the target is any integer
(`index: number` in the source).  A negative target passes the
`index > this.record.length` guard and takes the downward branch, whose loop
`for (let i = this._index - 1; i >= index; i--)` runs down to `i = -1`; there
`this.record[-1]` is `undefined` and `last[0]` throws a TypeError.  `none`
models that thrown exception (the states after the loop's earlier `unset`
side effects are discarded with the abort).  On non-negative targets this is
`some` of the loops above. -/
def Board.jump_int (b : Board) (index : Int) : Option Board :=
  if (b.record.length : Int) < index then some b
  else if (b._index : Int) < index then
    some ⟨((b.record.drop b._index).take (index.toNat - b._index)).foldl
        (fun g m => (g.set m.1 m.2).2) b.board,
      b.record, index.toNat⟩
  else if index < 0 then none
  else
    some ⟨(((b.record.drop index.toNat).take (b._index - index.toNat)).reverse).foldl
        (fun g m => (g.unset m.1).2) b.board,
      b.record, index.toNat⟩

def Board.infer_turn (b : Board) : Stone × Bool :=
  if b._index = 0 then (Stone.Black, true)
  else
    let last := (b.record.getD (b._index - 1) default_move).2
    if b._index = 1 then (Stone.White, last == Stone.White)
    else
      let last_prev := (b.record.getD (b._index - 2) default_move).2
      if last = last_prev then (last.opp, false) else (last, true)

def Board.from_record (record : List (Point × Stone)) : Board :=
  record.foldl (fun b m => (b.set m.1 m.2).2) Board.empty

/-! ### Shape lemmas for the board operations -/

theorem Board.set_of_success (b : Board) (p : Point) (s : Stone)
    (h : (b.board.set p s).1 = true) :
    b.set p s = (true, ⟨(b.board.set p s).2,
      b.record.take b._index ++ [(p, s)], b._index + 1⟩) := by
  unfold Board.set
  rw [if_pos h]

theorem Board.set_of_fail (b : Board) (p : Point) (s : Stone)
    (h : (b.board.set p s).1 = false) :
    b.set p s = (false, { b with board := (b.board.set p s).2 }) := by
  unfold Board.set
  rw [if_neg (by rw [h]; exact Bool.false_ne_true)]

theorem Board.unset_of_pos (b : Board) (h : 0 < b._index) :
    b.unset = (some (b.record.getD (b._index - 1) default_move),
      ⟨(b.board.unset (b.record.getD (b._index - 1) default_move).1).2, b.record,
        b._index - 1⟩) := by
  unfold Board.unset
  rw [if_neg (by omega)]

theorem Board.reset_of_lt (b : Board) (h : b._index < b.record.length) :
    b.reset = (some (b.record.getD b._index default_move),
      ⟨(b.board.set (b.record.getD b._index default_move).1
          (b.record.getD b._index default_move).2).2, b.record, b._index + 1⟩) := by
  unfold Board.reset
  rw [if_neg (by omega)]

/-- C6: committing on an occupied point returns false and leaves the whole
board state (grid, record, cursor) exactly as before. -/
theorem board_set_occupied (b : Board) (p : Point) (s m : Stone)
    (h : b.get p = some m) :
    (b.set p s).1 = false ∧ (b.set p s).2 = b := by
  have hocc : b.board.get p ≠ none := by
    intro hnone
    rw [Board.get, hnone] at h
    cases h
  have hfail : (b.board.set p s).1 = false := by
    rw [RawBoard.set_fst, decide_eq_false_iff_not]
    exact hocc
  rw [Board.set_of_fail b p s hfail, RawBoard.set_snd_of_occupied b.board p s hocc]
  exact ⟨rfl, rfl⟩

/-- C6 witness: a second commit at the origin fails and changes nothing. -/
theorem board_set_occupied_witness :
    (((Board.empty.set ⟨0, 0⟩ Stone.Black).2).set ⟨0, 0⟩ Stone.White).1 = false ∧
    (((Board.empty.set ⟨0, 0⟩ Stone.Black).2).set ⟨0, 0⟩ Stone.White).2
      = (Board.empty.set ⟨0, 0⟩ Stone.Black).2 :=
  board_set_occupied (Board.empty.set ⟨0, 0⟩ Stone.Black).2 ⟨0, 0⟩ Stone.White Stone.Black
    (by decide)

/-- C5: a successful commit discards the record from the cursor on, appends the
new entry and advances the cursor by one. -/
theorem board_set_appends (b : Board) (p : Point) (s : Stone)
    (h : (b.set p s).1 = true) :
    (b.set p s).2.record = b.record.take b._index ++ [(p, s)] ∧
    (b.set p s).2._index = b._index + 1 := by
  cases hb : (b.board.set p s).1 with
  | false =>
    rw [Board.set_of_fail b p s hb] at h
    cases h
  | true =>
    rw [Board.set_of_success b p s hb]
    exact ⟨rfl, rfl⟩

/-- C5 witness: commit M1 M2 M3, undo once, commit M4; the record is
[M1, M2, M4] and the cursor 3. -/
theorem board_set_appends_witness :
    (((((((Board.empty.set ⟨0, 0⟩ Stone.Black).2).set ⟨1, 0⟩ Stone.White).2).set
        ⟨0, 1⟩ Stone.White).2).unset.2.set ⟨1, 1⟩ Stone.Black).2.record
      = [(⟨0, 0⟩, Stone.Black), (⟨1, 0⟩, Stone.White), (⟨1, 1⟩, Stone.Black)] ∧
    (((((((Board.empty.set ⟨0, 0⟩ Stone.Black).2).set ⟨1, 0⟩ Stone.White).2).set
        ⟨0, 1⟩ Stone.White).2).unset.2.set ⟨1, 1⟩ Stone.Black).2._index = 3 := by
  have h := board_set_appends
    ((((((Board.empty.set ⟨0, 0⟩ Stone.Black).2).set ⟨1, 0⟩ Stone.White).2).set
      ⟨0, 1⟩ Stone.White).2).unset.2 ⟨1, 1⟩ Stone.Black (by decide)
  exact ⟨h.1.trans (by decide), h.2.trans (by decide)⟩

theorem Board.jump_of_gt (b : Board) {n : Nat} (hn : b.record.length < n) :
    b.jump n = b := by
  unfold Board.jump
  rw [if_pos hn]

/-- `jump_int` agrees with the natural-number `jump` on every non-negative
target: the JS fault is confined to negative targets. -/
theorem Board.jump_int_coe (b : Board) (n : Nat) :
    b.jump_int (n : Int) = some (b.jump n) := by
  unfold Board.jump_int Board.jump
  rw [show ((n : Int).toNat) = n from rfl]
  by_cases h1 : b.record.length < n
  · rw [if_pos (by exact_mod_cast h1), if_pos h1]
  · rw [if_neg (by exact_mod_cast h1), if_neg h1]
    by_cases h2 : b._index < n
    · rw [if_pos (by exact_mod_cast h2), if_pos h2]
    · rw [if_neg (by exact_mod_cast h2), if_neg h2,
        if_neg (show ¬(n : Int) < 0 by omega)]

/-- C9 counterexample: `jump(-1)` is a target outside the recorded history,
yet it is not a defined no-op: the only guard (`index > record.length`) passes,
the downward loop reaches `i = -1`, `record[-1]` is `undefined`, and `last[0]`
throws a TypeError — modelled by `none` — instead of leaving the state
unchanged. -/
theorem board_jump_neg_counterexample : Board.empty.jump_int (-1) = none := rfl

/-- C9 amended: undo at cursor 0 and redo at the end of the record return
`none` with the board unchanged, and jump with any target beyond the record
length leaves the board unchanged; but a jump with a negative target faults
(the source throws a TypeError reading `record[-1]`), so only non-negative
out-of-history targets are defined no-ops. -/
theorem board_nav_defined (b : Board) :
    (b._index = 0 → b.unset = (none, b)) ∧
    (b.record.length ≤ b._index → b.reset = (none, b)) ∧
    (∀ n : Int, (b.record.length : Int) < n → b.jump_int n = some b) ∧
    (∀ n : Int, n < 0 → b.jump_int n = none) := by
  refine ⟨?_, ?_, ?_, ?_⟩
  · intro h0
    unfold Board.unset
    rw [if_pos h0]
  · intro h
    unfold Board.reset
    rw [if_pos h]
  · intro n hn
    unfold Board.jump_int
    rw [if_pos hn]
  · intro n hn
    unfold Board.jump_int
    rw [if_neg (show ¬(b.record.length : Int) < n by omega),
      if_neg (show ¬(b._index : Int) < n by omega), if_pos hn]

/-- C9 witness at the empty board, with targets 5 (defined no-op) and -1
(fault). -/
theorem board_nav_defined_witness :
    Board.empty.unset = (none, Board.empty) ∧
    Board.empty.reset = (none, Board.empty) ∧
    Board.empty.jump_int 5 = some Board.empty ∧
    Board.empty.jump_int (-1) = none :=
  ⟨(board_nav_defined Board.empty).1 (by decide),
   (board_nav_defined Board.empty).2.1 (by decide),
   (board_nav_defined Board.empty).2.2.1 5 (by decide),
   (board_nav_defined Board.empty).2.2.2 (-1) (by decide)⟩

theorem getD_eq_getElem {α : Type} {l : List α} {n : Nat} (d : α) (h : n < l.length) :
    l.getD n d = l[n] := by
  rw [List.getD_eq_getElem?_getD, List.getElem?_eq_getElem h]
  rfl

/-- C4: the turn-inference policy. At cursor 0: (Black, fresh). At cursor 1:
(White, fresh iff the single recorded move was by White). At cursor ≥ 2:
if the last two movers agree, (opposite, not fresh); else (last mover, fresh). -/
theorem board_infer_turn (b : Board) (h : b._index ≤ b.record.length) :
    (b._index = 0 → b.infer_turn = (Stone.Black, true)) ∧
    (∀ h1 : b._index = 1,
      b.infer_turn = (Stone.White, (b.record.get ⟨0, by omega⟩).2 == Stone.White)) ∧
    (∀ h2 : 2 ≤ b._index,
      b.infer_turn =
        (if (b.record.get ⟨b._index - 1, by omega⟩).2
            = (b.record.get ⟨b._index - 2, by omega⟩).2
         then ((b.record.get ⟨b._index - 1, by omega⟩).2.opp, false)
         else ((b.record.get ⟨b._index - 1, by omega⟩).2, true))) := by
  refine ⟨?_, ?_, ?_⟩
  · intro h0
    unfold Board.infer_turn
    rw [if_pos h0]
  · intro h1
    unfold Board.infer_turn
    simp only [h1, if_true]
    rw [getD_eq_getElem default_move (show 1 - 1 < b.record.length by omega)]
    simp only [List.get_eq_getElem]
    rw [if_neg (show ¬(1 = 0) by omega)]
  · intro h2
    unfold Board.infer_turn
    rw [if_neg (by omega), if_neg (by omega)]
    rw [getD_eq_getElem _ (by omega), getD_eq_getElem _ (by omega)]
    simp only [List.get_eq_getElem]

/-- C4 witness: after two Black moves the inferred turn is (White, not fresh). -/
theorem board_infer_turn_witness :
    (((Board.empty.set ⟨0, 0⟩ Stone.Black).2).set ⟨1, 0⟩ Stone.Black).2.infer_turn
      = (Stone.White, false) := by
  have h := (board_infer_turn
    (((Board.empty.set ⟨0, 0⟩ Stone.Black).2).set ⟨1, 0⟩ Stone.Black).2
    (by decide)).2.2 (by decide)
  exact h.trans (by decide)

/-! ### Jump as iterated undo/redo -/

theorem slice_cons (l : List (Point × Stone)) (i n : Nat) (h1 : i < n)
    (h2 : i < l.length) :
    (l.drop i).take (n - i)
      = l.getD i default_move :: (l.drop (i + 1)).take (n - (i + 1)) := by
  rw [List.drop_eq_getElem_cons h2, show n - i = (n - (i + 1)) + 1 by omega,
    List.take_succ_cons, getD_eq_getElem _ h2]

theorem slice_snoc (l : List (Point × Stone)) (n k : Nat) (h : n + k < l.length) :
    (l.drop n).take (k + 1)
      = (l.drop n).take k ++ [l.getD (n + k) default_move] := by
  have hk : k < (l.drop n).length := by rw [List.length_drop]; omega
  rw [← List.take_concat_get _ _ hk, List.concat_eq_append, List.getElem_drop,
    getD_eq_getElem _ h]

theorem Board.jump_up_branch (b : Board) (n : Nat) (h1 : n ≤ b.record.length)
    (h2 : b._index < n) :
    b.jump n = ⟨((b.record.drop b._index).take (n - b._index)).foldl
        (fun g m => (g.set m.1 m.2).2) b.board, b.record, n⟩ := by
  unfold Board.jump
  rw [if_neg (by omega), if_pos h2]

theorem Board.jump_down_branch (b : Board) (n : Nat) (h1 : n ≤ b.record.length)
    (h2 : ¬b._index < n) :
    b.jump n = ⟨(((b.record.drop n).take (b._index - n)).reverse).foldl
        (fun g m => (g.unset m.1).2) b.board, b.record, n⟩ := by
  unfold Board.jump
  rw [if_neg (by omega), if_neg h2]

theorem Board.jump_up : ∀ (k : Nat) (b : Board) (n : Nat),
    b._index + k = n → n ≤ b.record.length →
    b.jump n = (fun bb => bb.reset.2)^[k] b := by
  intro k
  induction k with
  | zero =>
    intro b n hk hn
    have hn2 : n = b._index := by omega
    subst hn2
    rw [Board.jump_down_branch b b._index hn (by omega)]
    rw [show b._index - b._index = 0 by omega, List.take_zero, List.reverse_nil,
      List.foldl_nil, Function.iterate_zero]
    rfl
  | succ k ih =>
    intro b n hk hn
    have hlt : b._index < n := by omega
    have hidx : b._index < b.record.length := by omega
    have hm := Board.reset_of_lt b hidx
    rw [Function.iterate_succ_apply]
    rw [← ih (b.reset.2) n (by rw [hm]; show b._index + 1 + k = n; omega)
      (by rw [hm]; show n ≤ b.record.length; exact hn)]
    rw [hm]
    show b.jump n = (Board.mk
      ((b.board.set (b.record.getD b._index default_move).1
        (b.record.getD b._index default_move).2).2) b.record (b._index + 1)).jump n
    rw [Board.jump_up_branch b n hn hlt]
    rw [slice_cons b.record b._index n hlt hidx, List.foldl_cons]
    by_cases hcase : b._index + 1 < n
    · rw [Board.jump_up_branch _ n (by show n ≤ b.record.length; exact hn)
        (by show b._index + 1 < n; exact hcase)]
    · have hn1 : n = b._index + 1 := by omega
      rw [Board.jump_down_branch _ n (by show n ≤ b.record.length; exact hn)
        (by show ¬b._index + 1 < n; omega)]
      rw [show n - (b._index + 1) = 0 by omega, List.take_zero, List.foldl_nil]
      show Board.mk _ b.record n = Board.mk _ b.record n
      rw [show b._index + 1 - n = 0 by omega, List.take_zero, List.reverse_nil,
        List.foldl_nil]

theorem Board.jump_down : ∀ (k : Nat) (b : Board) (n : Nat),
    n + k = b._index → b._index ≤ b.record.length →
    b.jump n = (fun bb => bb.unset.2)^[k] b := by
  intro k
  induction k with
  | zero =>
    intro b n hk hn
    have hn2 : n = b._index := by omega
    subst hn2
    rw [Board.jump_down_branch b b._index (by omega) (by omega)]
    rw [show b._index - b._index = 0 by omega, List.take_zero, List.reverse_nil,
      List.foldl_nil, Function.iterate_zero]
    rfl
  | succ k ih =>
    intro b n hk hn
    have hlt : n < b._index := by omega
    have hidx : b._index - 1 < b.record.length := by omega
    have hm := Board.unset_of_pos b (by omega)
    rw [Function.iterate_succ_apply]
    rw [← ih (b.unset.2) n (by rw [hm]; show n + k = b._index - 1; omega)
      (by rw [hm]; show b._index - 1 ≤ b.record.length; omega)]
    rw [hm]
    show b.jump n = (Board.mk
      ((b.board.unset (b.record.getD (b._index - 1) default_move).1).2)
      b.record (b._index - 1)).jump n
    rw [Board.jump_down_branch b n (by omega) (by omega)]
    rw [show b._index - n = (b._index - 1 - n) + 1 by omega]
    rw [slice_snoc b.record n (b._index - 1 - n) (by omega)]
    rw [show n + (b._index - 1 - n) = b._index - 1 by omega]
    rw [List.reverse_concat, List.foldl_cons]
    rw [Board.jump_down_branch _ n (by show n ≤ b.record.length; omega)
      (by show ¬b._index - 1 < n; omega)]

/-- C3: for any target `n` within the record, `jump n` produces exactly the
board obtained by the corresponding number of individual undo or redo steps
(the composition below degenerates to pure undos or pure redos since one of
the two iteration counts is zero). -/
theorem board_jump_equiv (b : Board) (n : Nat) (h1 : b._index ≤ b.record.length)
    (h2 : n ≤ b.record.length) :
    b.jump n = (fun bb => bb.unset.2)^[b._index - n]
      ((fun bb => bb.reset.2)^[n - b._index] b) := by
  rcases Nat.le_total b._index n with hle | hle
  · rw [show b._index - n = 0 by omega, Function.iterate_zero]
    exact Board.jump_up (n - b._index) b n (by omega) h2
  · rw [show n - b._index = 0 by omega, Function.iterate_zero]
    show b.jump n = (fun bb => bb.unset.2)^[b._index - n] b
    exact Board.jump_down (b._index - n) b n (by omega) h1

/-- C3 witness: on a two-move board, `jump 0` equals two undos. -/
theorem board_jump_equiv_witness :
    (((Board.empty.set ⟨0, 0⟩ Stone.Black).2).set ⟨1, 0⟩ Stone.White).2.jump 0
      = (fun bb => bb.unset.2)^[
          (((Board.empty.set ⟨0, 0⟩ Stone.Black).2).set ⟨1, 0⟩ Stone.White).2._index - 0]
        ((fun bb => bb.reset.2)^[
          0 - (((Board.empty.set ⟨0, 0⟩ Stone.Black).2).set ⟨1, 0⟩ Stone.White).2._index]
          (((Board.empty.set ⟨0, 0⟩ Stone.Black).2).set ⟨1, 0⟩ Stone.White).2) :=
  board_jump_equiv (((Board.empty.set ⟨0, 0⟩ Stone.Black).2).set ⟨1, 0⟩ Stone.White).2 0
    (by decide) (by decide)

/-! ### The replay invariant -/

inductive Op where
  | set (point : Point) (stone : Stone)
  | unset
  | reset
  | jump (index : Nat)

def Board.apply (b : Board) : Op → Board
  | .set p s => (b.set p s).2
  | .unset => b.unset.2
  | .reset => b.reset.2
  | .jump n => b.jump n

/-- Replaying a move list onto an empty sparse grid. -/
def grid_of_record (moves : List (Point × Stone)) : RawBoard :=
  moves.foldl (fun g m => (g.set m.1 m.2).2) RawBoard.empty

theorem grid_of_record_snoc (ms : List (Point × Stone)) (m : Point × Stone) :
    grid_of_record (ms ++ [m]) = ((grid_of_record ms).set m.1 m.2).2 := by
  unfold grid_of_record
  rw [List.foldl_append]
  rfl

theorem grid_get_not_mem (ms : List (Point × Stone)) (q : Point)
    (h : ∀ m ∈ ms, m.1.index ≠ q.index) : (grid_of_record ms).get q = none := by
  induction ms using List.reverseRecOn with
  | nil => exact RawBoard.get_empty q
  | append_singleton ms m2 ih =>
    rw [grid_of_record_snoc, RawBoard.get_set]
    rw [if_neg (fun hand => h m2 (by simp) hand.1.symm)]
    exact ih (fun m hm => h m (by simp [hm]))

theorem grid_get_mem (ms : List (Point × Stone))
    (hnd : (ms.map fun m => m.1.index).Nodup) :
    ∀ m ∈ ms, (grid_of_record ms).get m.1 = some m.2 := by
  induction ms using List.reverseRecOn with
  | nil => intro m hm; cases hm
  | append_singleton ms m2 ih =>
    rw [List.map_append] at hnd
    obtain ⟨hnd1, hnd2, hdisj⟩ := List.nodup_append.mp hnd
    have hnotin : m2.1.index ∉ ms.map fun m => m.1.index := by
      intro hmem
      exact hdisj hmem (by simp)
    intro m hm
    rw [grid_of_record_snoc, RawBoard.get_set]
    rcases List.mem_append.mp hm with hm1 | hm2
    · have hne : m.1.index ≠ m2.1.index := by
        intro he
        exact hnotin (he ▸ List.mem_map_of_mem _ hm1)
      rw [if_neg (fun hand => hne hand.1)]
      exact ih hnd1 m hm1
    · have hmm : m = m2 := by simpa using hm2
      subst hmm
      rw [if_pos ⟨rfl, grid_get_not_mem ms m.1
        (fun m3 hm3 he => hnotin (he ▸ List.mem_map_of_mem _ hm3))⟩]

/-- The invariant tying the sparse grid to the record prefix `[0, cursor)`. -/
def Board.Coherent (b : Board) : Prop :=
  b._index ≤ b.record.length ∧
  (b.record.map fun m => m.1.index).Nodup ∧
  ∀ q : Point, b.board.get q = (grid_of_record (b.record.take b._index)).get q

theorem coherent_empty : Board.empty.Coherent :=
  ⟨Nat.le_refl 0, List.nodup_nil, fun q => (RawBoard.get_empty q).symm ▸ rfl⟩

theorem coherent_set (b : Board) (p : Point) (s : Stone) (h : b.Coherent) :
    ((b.set p s).2).Coherent := by
  obtain ⟨hlen, hnd, hgrid⟩ := h
  cases hok : (b.board.set p s).1 with
  | false =>
    rw [Board.set_of_fail b p s hok]
    have hocc : b.board.get p ≠ none := by
      rw [RawBoard.set_fst] at hok
      exact of_decide_eq_false hok
    refine ⟨hlen, hnd, fun q => ?_⟩
    show ((b.board.set p s).2).get q = _
    rw [RawBoard.set_snd_of_occupied b.board p s hocc]
    exact hgrid q
  | true =>
    rw [Board.set_of_success b p s hok]
    have hnone : b.board.get p = none := by
      rw [RawBoard.set_fst] at hok
      exact of_decide_eq_true hok
    have hgnone : (grid_of_record (b.record.take b._index)).get p = none := by
      rw [← hgrid p]; exact hnone
    have hnd_take : ((b.record.take b._index).map fun m => m.1.index).Nodup := by
      rw [List.map_take]
      exact (List.take_sublist _ _).nodup hnd
    have hfresh : ∀ m ∈ b.record.take b._index, m.1.index ≠ p.index := by
      intro m hm he
      have h2 := grid_get_mem (b.record.take b._index) hnd_take m hm
      rw [RawBoard.get_congr _ he, hgnone] at h2
      cases h2
    refine ⟨?_, ?_, ?_⟩
    · show b._index + 1 ≤ (b.record.take b._index ++ [(p, s)]).length
      rw [List.length_append, List.length_take, Nat.min_eq_left hlen]
      exact Nat.le_refl _
    · show ((b.record.take b._index ++ [(p, s)]).map fun m => m.1.index).Nodup
      rw [List.map_append]
      refine List.Nodup.append hnd_take (List.nodup_singleton _) ?_
      intro a ha hb
      rcases List.mem_map.mp ha with ⟨m, hm, rfl⟩
      exact hfresh m hm (by simpa using hb)
    · intro q
      show ((b.board.set p s).2).get q
        = (grid_of_record ((b.record.take b._index ++ [(p, s)]).take (b._index + 1))).get q
      have htake : (b.record.take b._index ++ [(p, s)]).take (b._index + 1)
          = b.record.take b._index ++ [(p, s)] := by
        apply List.take_of_length_le
        rw [List.length_append, List.length_take, Nat.min_eq_left hlen]
        exact Nat.le_refl _
      rw [htake, grid_of_record_snoc, RawBoard.get_set, RawBoard.get_set, hgnone, hnone]
      by_cases hqp : q.index = p.index
      · rw [if_pos ⟨hqp, rfl⟩, if_pos ⟨hqp, rfl⟩]
      · rw [if_neg (fun hand => hqp hand.1), if_neg (fun hand => hqp hand.1)]
        exact hgrid q

theorem coherent_unset (b : Board) (h : b.Coherent) : (b.unset.2).Coherent := by
  obtain ⟨hlen, hnd, hgrid⟩ := h
  by_cases h0 : b._index = 0
  · unfold Board.unset
    rw [if_pos h0]
    exact ⟨hlen, hnd, hgrid⟩
  · rw [Board.unset_of_pos b (by omega)]
    have hidx : b._index - 1 < b.record.length := by omega
    refine ⟨by show b._index - 1 ≤ b.record.length; omega, hnd, ?_⟩
    intro q
    show ((b.board.unset (b.record.getD (b._index - 1) default_move).1).2).get q
      = (grid_of_record (b.record.take (b._index - 1))).get q
    have htake : b.record.take b._index
        = b.record.take (b._index - 1) ++ [b.record.getD (b._index - 1) default_move] := by
      have e2 : b.record.take (b._index - 1 + 1)
          = b.record.take (b._index - 1) ++ [b.record.getD (b._index - 1) default_move] := by
        rw [getD_eq_getElem _ hidx, ← List.take_concat_get b.record _ hidx,
          List.concat_eq_append]
      rw [show b._index - 1 + 1 = b._index by omega] at e2
      exact e2
    have hnotin : ∀ m2 ∈ b.record.take (b._index - 1),
        m2.1.index ≠ (b.record.getD (b._index - 1) default_move).1.index := by
      have hnd2 : ((b.record.take b._index).map fun mm => mm.1.index).Nodup := by
        rw [List.map_take]
        exact (List.take_sublist _ _).nodup hnd
      rw [htake, List.map_append] at hnd2
      have hdisj := (List.nodup_append.mp hnd2).2.2
      intro m2 hm2 he
      exact hdisj (List.mem_map_of_mem _ hm2) (by simp [he])
    rw [RawBoard.get_unset]
    by_cases hqm : q.index = (b.record.getD (b._index - 1) default_move).1.index
    · rw [if_pos hqm]
      exact (grid_get_not_mem _ q
        (fun m2 hm2 he2 => hnotin m2 hm2 (by rw [he2, hqm]))).symm
    · rw [if_neg hqm]
      rw [hgrid q, htake, grid_of_record_snoc, RawBoard.get_set]
      rw [if_neg (fun hand => hqm hand.1)]

theorem coherent_reset (b : Board) (h : b.Coherent) : (b.reset.2).Coherent := by
  obtain ⟨hlen, hnd, hgrid⟩ := h
  by_cases h0 : b.record.length ≤ b._index
  · unfold Board.reset
    rw [if_pos h0]
    exact ⟨hlen, hnd, hgrid⟩
  · rw [Board.reset_of_lt b (by omega)]
    refine ⟨by show b._index + 1 ≤ b.record.length; omega, hnd, ?_⟩
    intro q
    show ((b.board.set (b.record.getD b._index default_move).1
        (b.record.getD b._index default_move).2).2).get q
      = (grid_of_record (b.record.take (b._index + 1))).get q
    have htake : b.record.take (b._index + 1)
        = b.record.take b._index ++ [b.record.getD b._index default_move] := by
      rw [getD_eq_getElem _ (by omega), ← List.take_concat_get b.record _ (by omega),
        List.concat_eq_append]
    rw [htake, grid_of_record_snoc, RawBoard.get_set, RawBoard.get_set,
      hgrid (b.record.getD b._index default_move).1]
    by_cases hcond : q.index = (b.record.getD b._index default_move).1.index ∧
        (grid_of_record (b.record.take b._index)).get
          (b.record.getD b._index default_move).1 = none
    · rw [if_pos hcond, if_pos hcond]
    · rw [if_neg hcond, if_neg hcond]
      exact hgrid q

theorem coherent_unset_iter (k : Nat) :
    ∀ b : Board, b.Coherent → ((fun bb => bb.unset.2)^[k] b).Coherent := by
  induction k with
  | zero => intro b h; exact h
  | succ k ih =>
    intro b h
    rw [Function.iterate_succ_apply]
    exact ih _ (coherent_unset b h)

theorem coherent_reset_iter (k : Nat) :
    ∀ b : Board, b.Coherent → ((fun bb => bb.reset.2)^[k] b).Coherent := by
  induction k with
  | zero => intro b h; exact h
  | succ k ih =>
    intro b h
    rw [Function.iterate_succ_apply]
    exact ih _ (coherent_reset b h)

theorem coherent_jump (b : Board) (n : Nat) (h : b.Coherent) : (b.jump n).Coherent := by
  rcases Nat.lt_or_ge b.record.length n with hlt | hle
  · rw [Board.jump_of_gt b hlt]
    exact h
  · rcases Nat.le_total b._index n with hd | hd
    · rw [Board.jump_up (n - b._index) b n (by omega) hle]
      exact coherent_reset_iter _ _ h
    · rw [Board.jump_down (b._index - n) b n (by omega) h.1]
      exact coherent_unset_iter _ _ h

theorem coherent_apply (b : Board) (op : Op) (h : b.Coherent) : (b.apply op).Coherent := by
  cases op with
  | set p s => exact coherent_set b p s h
  | unset => exact coherent_unset b h
  | reset => exact coherent_reset b h
  | jump n => exact coherent_jump b n h

/-- C2: after any sequence of board operations from the empty board, the grid's
contents are exactly the replay of the record entries `[0, cursor)` onto an
empty grid (pointwise); entries at or beyond the cursor are not materialized. -/
theorem board_replay_invariant (ops : List Op) (q : Point) :
    ((ops.foldl Board.apply Board.empty).board).get q
      = (grid_of_record ((ops.foldl Board.apply Board.empty).record.take
          (ops.foldl Board.apply Board.empty)._index)).get q := by
  have hgen : ∀ (l : List Op) (b : Board), b.Coherent → (l.foldl Board.apply b).Coherent := by
    intro l
    induction l with
    | nil => intro b h; exact h
    | cons op l ih =>
      intro b h
      rw [List.foldl_cons]
      exact ih _ (coherent_apply b op h)
  exact (hgen ops Board.empty coherent_empty).2.2 q
